import Mathlib

/-!
Verification of the release extraction pipeline in
`pkg/cli/admin/release/extract.go` (openshift/oc).

The development shallowly embeds the three flows of `(*ExtractOptions).Run`:

* the git source-checkout flow (`extractGit`, lines 246-309): planning with
  per-repository deduplication, parallel checkout tasks with a single-fire
  `hadErrors` guard, and the silent `ErrExit` verdict;
* the default release-contents flow (lines 210-243): the content verifier
  and its skip-verification policy;
* the single-file flow (lines 177-208): tar-entry scanning with no verifier.

Go maps/strings become Lean association lists/`String`; the concurrent work
queue becomes an explicit transition system over traces of events; I/O streams
become lists of emitted lines.
-/

namespace OcRelease

/-- One entry of `release.References.Spec.Tags`: a tag reference with its
`sourceLocation` / `sourceCommit` annotations (`""` models a missing
annotation, which is what a Go map lookup yields). -/
structure TagReference where
  name : String
  sourceRepository : String
  sourceCommit : String
deriving DecidableEq, Repr

/-- A checkout unit of work handed to `w.Parallel`: the closure captures the
loop-local `repo` and `commit` values. -/
structure CheckoutTask where
  repo : String
  commit : String
deriving DecidableEq, Repr

/-- A message emitted during the planning loop (extract.go lines 269-282):
either the low-severity `klog.V(2)` log, the `warning: Tag ... has no source
info` line on the error stream, or the conflicting-commit warning. -/
inductive PlanMsg where
  | noSourceInfoLog (name : String)
  | noSourceInfoWarning (name : String)
  | conflictWarning (repo : String)
deriving DecidableEq, Repr

/-- State threaded through the planning loop: the `alreadyExtracted` map
(association list keyed by repository, insertion-ordered), the tasks submitted
so far, and the planning messages emitted so far. -/
structure PlanState where
  alreadyExtracted : List (String × String)
  tasks : List CheckoutTask
  msgs : List PlanMsg
deriving DecidableEq, Repr

def initialPlanState : PlanState := ⟨[], [], []⟩

/-- The Go map lookup `oldCommit, ok := alreadyExtracted[repo]` on the
association-list model (keys are unique by construction, so first match is
the binding). -/
def findCommit (m : List (String × String)) (repo : String) : Option String :=
  match m with
  | [] => none
  | (r, c) :: rest => if r = repo then some c else findCommit rest repo

/-- One iteration of the planning loop body (extract.go lines 266-284,
including the `w.Parallel` submission at 285): skip references missing either
annotation (logging at verbosity ≥ 2, otherwise warning on the error stream),
consult `alreadyExtracted`, warn once on a differing commit for a known
repository, and otherwise record the repository and submit a task. -/
def planStep (verbosity : Nat) (s : PlanState) (ref : TagReference) : PlanState :=
  if ref.sourceRepository.length == 0 || ref.sourceCommit.length == 0 then
    if 2 ≤ verbosity then
      { s with msgs := s.msgs ++ [PlanMsg.noSourceInfoLog ref.name] }
    else
      { s with msgs := s.msgs ++ [PlanMsg.noSourceInfoWarning ref.name] }
  else
    match findCommit s.alreadyExtracted ref.sourceRepository with
    | some oldCommit =>
        if oldCommit ≠ ref.sourceCommit then
          { s with msgs := s.msgs ++ [PlanMsg.conflictWarning ref.sourceRepository] }
        else
          s
    | none =>
        { s with
          alreadyExtracted := s.alreadyExtracted ++ [(ref.sourceRepository, ref.sourceCommit)],
          tasks := s.tasks ++ [⟨ref.sourceRepository, ref.sourceCommit⟩] }

/-- The whole planning loop over the release's tag references. -/
def plan (verbosity : Nat) (refs : List TagReference) : PlanState :=
  refs.foldl (planStep verbosity) initialPlanState

/-- A reference is eligible for checkout when both annotations are non-empty
(the negation of the skip condition at extract.go line 269). -/
def eligible (ref : TagReference) : Bool :=
  !(ref.sourceRepository.length == 0 || ref.sourceCommit.length == 0)

/-- The number of distinct `sourceRepository` values among references with
both annotations non-empty. -/
def distinctRepoCount (refs : List TagReference) : Nat :=
  ((refs.filter (fun r => eligible r)).map (fun r => r.sourceRepository)).toFinset.card

/-- The commit of the first eligible reference carrying the given
repository. -/
def firstCommitFor (refs : List TagReference) (repo : String) : Option String :=
  (refs.find? (fun r => eligible r && (r.sourceRepository == repo))).map
    (fun r => r.sourceCommit)

/-- Which planning messages are conflicting-commit warnings. -/
def isConflictWarning : PlanMsg → Bool
  | .conflictWarning _ => true
  | _ => false

/-- Which planning messages are printed on the error stream (`o.ErrOut`), as
opposed to the low-severity `klog` log. -/
def msgOnErrStream : PlanMsg → Bool
  | .noSourceInfoLog _ => false
  | .noSourceInfoWarning _ => true
  | .conflictWarning _ => true

/-- What happens when one checkout task body runs (extract.go lines 285-302):
`ensureCloneForRepo` may fail, then `CheckoutCommit` may fail, otherwise the
local path is printed. `errMsg` is the error value, `bufOut` the buffered
diagnostic output of the underlying git commands. -/
inductive TaskOutcome where
  | cloneFailed (errMsg bufOut : String)
  | checkoutFailed (errMsg bufOut : String)
  | ok (path : String)
deriving DecidableEq, Repr

def taskFailed : TaskOutcome → Bool
  | .cloneFailed _ _ => true
  | .checkoutFailed _ _ => true
  | .ok _ => false

/-- The error line a failing task prints on the error stream, following the
two `fmt.Fprintf(o.ErrOut, ...)` formats at lines 290 and 298; `none` for a
successful task. -/
def taskErrLine (repo : String) : TaskOutcome → Option String
  | .cloneFailed e b =>
      some ("error: cloning " ++ repo ++ ": " ++ e ++ "\n" ++ b ++ "\n")
  | .checkoutFailed e b =>
      some ("error: checking out commit for " ++ repo ++ ": " ++ e ++ "\n" ++ b ++ "\n")
  | .ok _ => none

/-- The line a successful task prints on standard output (line 301). -/
def taskPathLine : TaskOutcome → Option String
  | .ok path => some (path ++ "\n")
  | _ => none

/-- Shared state mutated by checkout task bodies: the `sync.Once` guard, the
`hadErrors` flag it protects, and the two output streams. -/
structure GitRunState where
  onceFired : Bool
  hadErrors : Bool
  out : List String
  errOut : List String
deriving DecidableEq, Repr

def initialGitRunState : GitRunState := ⟨false, false, [], []⟩

/-- `once.Do(func() { hadErrors = true })`: the body runs only the first
time, so the flag is set at most once (lines 289 and 297). -/
def fireOnce (s : GitRunState) : GitRunState :=
  if s.onceFired then s else { s with onceFired := true, hadErrors := true }

/-- One checkout task body acting on the shared state. A failing task fires
the once-guard and prints its error line; a successful task prints the local
repository path (lines 285-302). -/
def runTask (outcome : CheckoutTask → TaskOutcome) (s : GitRunState) (t : CheckoutTask) :
    GitRunState :=
  if taskFailed (outcome t) then
    let s' := fireOnce s
    { s' with errOut := s'.errOut ++ (taskErrLine t.repo (outcome t)).toList }
  else
    { s with out := s.out ++ (taskPathLine (outcome t)).toList }

/-- The effect of `q.Batch` on the shared state, for one completion order of
the submitted tasks (the engine guarantees no order, so theorems quantify over
every permutation of the planned task list). -/
def batchRun (outcome : CheckoutTask → TaskOutcome) (order : List CheckoutTask) : GitRunState :=
  order.foldl (runTask outcome) initialGitRunState

/-- The sequence of shared states observed at each task completion, starting
from the initial state. -/
def batchTrace (outcome : CheckoutTask → TaskOutcome) (order : List CheckoutTask) :
    List GitRunState :=
  List.scanl (runTask outcome) initialGitRunState order

/-- How many times the `once.Do` body actually executes along a completion
order (the single-fire guard skips the body when it has already fired). -/
def onceBodyRuns (outcome : CheckoutTask → TaskOutcome) :
    GitRunState → List CheckoutTask → Nat
  | _, [] => 0
  | s, t :: ts =>
      (if taskFailed (outcome t) && !s.onceFired then 1 else 0) +
        onceBodyRuns outcome (runTask outcome s t) ts

/-- What `extractGit` returns after `Batch`: `kcmdutil.ErrExit` (a silent
non-zero exit that prints no additional message) when `hadErrors` is set,
otherwise `nil` (lines 305-308). -/
inductive ExtractGitResult where
  | ok
  | errExitSilent
deriving DecidableEq, Repr

def extractGitVerdict (s : GitRunState) : ExtractGitResult :=
  if s.hadErrors then .errExitSilent else .ok

/-- Modelled from the spec: the content verifier constructed by
`imagemanifest.NewVerifier` lives in `pkg/cli/image/manifest`, which is not
part of the extracted sources. Per the spec, `Verify(declared, computed)`
records whether the digests ever matched and `Verified()` reports that
record. -/
structure Verifier where
  matched : Bool
deriving DecidableEq, Repr

def newVerifier : Verifier := ⟨false⟩

def Verifier.verify (v : Verifier) (declared computed : String) : Verifier :=
  { matched := v.matched || (declared == computed) }

def Verifier.verified (v : Verifier) : Bool := v.matched

/-- The data the tar extractor hands to `opts.ImageMetadataCallback` when it
fires: the declared digest, the computed content digest, and the image
config's creation timestamp. -/
structure MetadataEvent where
  dgst : String
  contentDigest : String
  created : String
deriving DecidableEq, Repr

/-- Whether the metadata event (if any) carried matching digests — exactly
when the verifier records a match. -/
def metadataMatched : Option MetadataEvent → Bool
  | none => false
  | some e => e.dgst == e.contentDigest

/-- What `opts.Run()` (the external tar extractor) did: failed with an error,
or completed, having fired the metadata callback at most once. -/
inductive ExtractOutcome where
  | failed (msg : String)
  | completed (metadata : Option MetadataEvent)
deriving DecidableEq, Repr

/-- The observable result of one `Run` invocation: the returned error (if
any) and the lines printed on the two streams. -/
structure RunOutput where
  result : Option String
  out : List String
  errOut : List String
deriving DecidableEq, Repr

def integrityErrMsg : String :=
  "the release image failed content verification and may have been tampered with"

/-- The status line the default flow's metadata callback prints on standard
output (extract.go lines 226-230); which format is used depends on whether
the parsed image reference carries an explicit ID. -/
def payloadStatusLine (refID : String) (e : MetadataEvent) : String :=
  if 0 < refID.length then
    "Extracted release payload created at " ++ e.created ++ "\n"
  else
    "Extracted release payload from digest " ++ e.dgst ++ " created at " ++ e.created ++ "\n"

/-- The default release-contents flow of `Run` (extract.go lines 210-243):
the callback routes the digests through the verifier and prints the status
line; after extraction the verification policy decides the verdict. -/
def runDefaultFlow (skipVerification : Bool) (refID : String) (outcome : ExtractOutcome) :
    RunOutput :=
  match outcome with
  | .failed msg => ⟨some msg, [], []⟩
  | .completed metadata =>
      let verifier :=
        match metadata with
        | none => newVerifier
        | some e => newVerifier.verify e.dgst e.contentDigest
      let outLines :=
        match metadata with
        | none => []
        | some e => [payloadStatusLine refID e]
      if !verifier.verified then
        if !skipVerification then
          ⟨some integrityErrMsg, outLines, []⟩
        else
          ⟨none, outLines, ["warning: " ++ integrityErrMsg ++ "\n"]⟩
      else
        ⟨none, outLines, []⟩

/-- Modelled from the spec: the bounded work queue (`workqueue.New(8,
ctx.Done())`, from `pkg/cli/image/workqueue`) is not part of the extracted
sources. Per the spec it is a fixed-capacity pool: tasks queue in submission
order, at most `maxParallel` are running at once, and cancellation stops
future dispatch only. Tasks are identified by their queue position. -/
structure EngineState where
  queued : List Nat
  running : List Nat
  finished : List Nat
  canceled : Bool
deriving DecidableEq, Repr

def initEngine (tasks : List Nat) : EngineState := ⟨tasks, [], [], false⟩

/-- One scheduling step of the engine: start the next queued task when a
worker slot is free and no cancellation was observed, retire a running task,
or observe cancellation. -/
inductive EngineStep (maxParallel : Nat) : EngineState → EngineState → Prop
  | start (t : Nat) (q r f : List Nat) :
      r.length < maxParallel →
      EngineStep maxParallel ⟨t :: q, r, f, false⟩ ⟨q, r ++ [t], f, false⟩
  | retire (t : Nat) (q r₁ r₂ f : List Nat) (c : Bool) :
      EngineStep maxParallel ⟨q, r₁ ++ t :: r₂, f, c⟩ ⟨q, r₁ ++ r₂, f ++ [t], c⟩
  | cancel (q r f : List Nat) :
      EngineStep maxParallel ⟨q, r, f, false⟩ ⟨q, r, f, true⟩

/-- States the engine can reach during one batch over the given tasks. -/
def EngineReachable (maxParallel : Nat) (tasks : List Nat) (s : EngineState) : Prop :=
  Relation.ReflTransGen (EngineStep maxParallel) (initEngine tasks) s

/-- `Batch` returns once nothing is queued or running; it conveys no error
value of its own. -/
def engineDone (s : EngineState) : Bool :=
  s.queued.isEmpty && s.running.isEmpty

/-- An observable event of one `extractGit` batch: the planning loop body
processes reference `i` (`planned i`), or the checkout task submitted for
reference `i` starts or finishes on a worker. -/
inductive GitEvent where
  | planned (i : Nat)
  | started (i : Nat)
  | finished (i : Nat)
deriving DecidableEq, Repr

def isPlannedEvent : GitEvent → Bool
  | .planned _ => true
  | _ => false

def isStartedEvent : GitEvent → Bool
  | .started _ => true
  | _ => false

def isFinishedEvent : GitEvent → Bool
  | .finished _ => true
  | _ => false

def eventIndex : GitEvent → Nat
  | .planned i => i
  | .started i => i
  | .finished i => i

/-- Whether iterating reference `i` submits a checkout task (equivalently,
writes the `alreadyExtracted` map): the planning fold grows its task list at
step `i`. -/
def submitsAt (verbosity : Nat) (refs : List TagReference) (i : Nat) : Bool :=
  (plan verbosity (refs.take i)).tasks.length <
    (plan verbosity (refs.take (i + 1))).tasks.length

/-- Modelled from the spec: the traces one `q.Batch` execution can produce.
The producer runs synchronously on the calling thread, so plan events occur
exactly once each, in reference order; `w.Parallel` submission is
asynchronous, so a submitted task starts any time after its own plan event
(in submission order, at most 8 running at once) and finishes after it
starts; `Batch` returns only after all submitted tasks finish, so every
submitted task has its events in the trace. -/
def validTrace (verbosity : Nat) (refs : List TagReference) (tr : List GitEvent) : Bool :=
  let n := refs.length
  (tr.filter isPlannedEvent == (List.range n).map GitEvent.planned) &&
  ((List.range n).all fun i =>
    if submitsAt verbosity refs i then
      tr.count (GitEvent.started i) == 1 &&
      tr.count (GitEvent.finished i) == 1 &&
      decide (tr.indexOf (GitEvent.planned i) < tr.indexOf (GitEvent.started i)) &&
      decide (tr.indexOf (GitEvent.started i) < tr.indexOf (GitEvent.finished i))
    else
      tr.count (GitEvent.started i) == 0 && tr.count (GitEvent.finished i) == 0) &&
  (tr.all fun e => decide (eventIndex e < n)) &&
  ((List.range n).all fun i => (List.range n).all fun j =>
    if i < j && submitsAt verbosity refs i && submitsAt verbosity refs j then
      decide (tr.indexOf (GitEvent.started i) < tr.indexOf (GitEvent.started j))
    else true) &&
  ((List.range (tr.length + 1)).all fun k =>
    decide ((tr.take k).countP isStartedEvent ≤ (tr.take k).countP isFinishedEvent + 8))

/-- The ordering property claimed for the planning phase: every start event
comes after every plan event, i.e. planning completes fully before any
checkout task begins running. -/
def planningBeforeAnyStart (tr : List GitEvent) : Bool :=
  tr.all fun e =>
    match e with
    | .started _ =>
        tr.all fun e₂ =>
          match e₂ with
          | .planned _ => decide (tr.indexOf e₂ < tr.indexOf e)
          | _ => true
    | _ => true

/-- The events at which the `alreadyExtracted` map is written: exactly the
plan events of task-submitting references. -/
def mapWriteEvent (verbosity : Nat) (refs : List TagReference) : GitEvent → Bool
  | .planned i => submitsAt verbosity refs i
  | _ => false

/-- Whether the trace keeps every map write before every worker start, i.e.
the map is never mutated after a worker has started. -/
def noMapWriteAfterStart (verbosity : Nat) (refs : List TagReference)
    (tr : List GitEvent) : Bool :=
  tr.all fun e =>
    if isStartedEvent e then
      tr.all fun e₂ =>
        if mapWriteEvent verbosity refs e₂ then decide (tr.indexOf e₂ < tr.indexOf e)
        else true
    else true

/-- A release with two eligible references in distinct repositories. -/
def refsTwoRepos : List TagReference :=
  [⟨"a", "r1", "c1"⟩, ⟨"b", "r2", "c2"⟩]

/-- An interleaved batch trace: the task for reference 0 starts while the
planning loop is still processing reference 1. -/
def interleavedTrace : List GitEvent :=
  [.planned 0, .started 0, .planned 1, .started 1, .finished 0, .finished 1]

/-- A fully sequential batch trace over the same release: all planning
precedes all task starts. -/
def sequentialTrace : List GitEvent :=
  [.planned 0, .planned 1, .started 0, .started 1, .finished 0, .finished 1]

/-- A tar entry seen by the single-file flow's `TarEntryCallback`: its header
name and its byte content. -/
structure TarEntry where
  name : String
  content : String
deriving DecidableEq, Repr

/-- The `TarEntryCallback` scan of the single-file flow (extract.go lines
191-201): skip entries whose name differs from the requested file, copy the
matching entry to standard output, set `found`, and stop scanning. -/
def scanEntries (file : String) : List TarEntry → Bool × List String
  | [] => (false, [])
  | e :: es =>
      if e.name ≠ file then scanEntries file es
      else (true, [e.content])

/-- The single-file flow of `Run` (extract.go lines 177-208): the
caller-supplied `ImageMetadataCallback` is installed directly and no verifier
is constructed, so the metadata event never influences the result or the
streams; after extraction, a missing file is an error. -/
def runFileFlow (file : String) (entries : List TarEntry)
    (extractErr : Option String) (metadata : Option MetadataEvent) : RunOutput :=
  let scanned := scanEntries file entries
  match extractErr with
  | some msg => ⟨some msg, scanned.2, []⟩
  | none =>
      if !scanned.1 then
        ⟨some ("image did not contain " ++ file), scanned.2, []⟩
      else
        ⟨none, scanned.2, []⟩

end OcRelease

namespace OcRelease

/-! ### Planning lemmas -/

theorem findCommit_eq_none_iff :
    ∀ (m : List (String × String)) (k : String),
      findCommit m k = none ↔ k ∉ m.map Prod.fst
  | [], k => by simp [findCommit]
  | (r, c) :: rest, k => by
      simp only [findCommit, List.map_cons, List.mem_cons]
      by_cases h : r = k
      · simp [h]
      · have hk : ¬(k = r) := fun hk => h hk.symm
        simp [h, hk, findCommit_eq_none_iff rest k]

theorem eligible_false_guard {ref : TagReference} (h : eligible ref = false) :
    (ref.sourceRepository.length == 0 || ref.sourceCommit.length == 0) = true := by
  rw [eligible] at h
  cases hb : (ref.sourceRepository.length == 0 || ref.sourceCommit.length == 0)
  · rw [hb] at h
    simp at h
  · rfl

theorem eligible_true_guard {ref : TagReference} (h : eligible ref = true) :
    (ref.sourceRepository.length == 0 || ref.sourceCommit.length == 0) = false := by
  rw [eligible] at h
  cases hb : (ref.sourceRepository.length == 0 || ref.sourceCommit.length == 0)
  · rfl
  · rw [hb] at h
    simp at h

theorem planStep_of_eligible_false (v : Nat) (s : PlanState) {ref : TagReference}
    (h : eligible ref = false) :
    planStep v s ref =
      { s with msgs := s.msgs ++
          [if 2 ≤ v then PlanMsg.noSourceInfoLog ref.name
           else PlanMsg.noSourceInfoWarning ref.name] } := by
  simp only [planStep, eligible_false_guard h, if_true]
  by_cases hv : 2 ≤ v <;> simp [hv]

theorem planStep_of_known (v : Nat) (s : PlanState) {ref : TagReference} {old : String}
    (h : eligible ref = true)
    (hfc : findCommit s.alreadyExtracted ref.sourceRepository = some old) :
    planStep v s ref =
      if old ≠ ref.sourceCommit then
        { s with msgs := s.msgs ++ [PlanMsg.conflictWarning ref.sourceRepository] }
      else s := by
  simp only [planStep, eligible_true_guard h, hfc]
  simp

theorem planStep_of_new (v : Nat) (s : PlanState) {ref : TagReference}
    (h : eligible ref = true)
    (hfc : findCommit s.alreadyExtracted ref.sourceRepository = none) :
    planStep v s ref =
      { s with
        alreadyExtracted := s.alreadyExtracted ++ [(ref.sourceRepository, ref.sourceCommit)],
        tasks := s.tasks ++ [⟨ref.sourceRepository, ref.sourceCommit⟩] } := by
  simp only [planStep, eligible_true_guard h, hfc]
  simp

theorem plan_inv (v : Nat) :
    ∀ (refs : List TagReference) (s : PlanState),
      s.alreadyExtracted = s.tasks.map (fun t => (t.repo, t.commit)) →
      (List.foldl (planStep v) s refs).alreadyExtracted =
        (List.foldl (planStep v) s refs).tasks.map (fun t => (t.repo, t.commit))
  | [], _, h => h
  | r :: rs, s, h => by
      rw [List.foldl_cons]
      refine plan_inv v rs _ ?_
      cases he : eligible r
      · rw [planStep_of_eligible_false v s he]
        exact h
      · cases hfc : findCommit s.alreadyExtracted r.sourceRepository with
        | none =>
            rw [planStep_of_new v s he hfc]
            simp [h]
        | some old =>
            rw [planStep_of_known v s he hfc]
            by_cases hco : old ≠ r.sourceCommit <;> simp [hco, h]

theorem repo_mem_tasks_of_findCommit_some {s : PlanState} {repo old : String}
    (hinv : s.alreadyExtracted = s.tasks.map (fun t => (t.repo, t.commit)))
    (hfc : findCommit s.alreadyExtracted repo = some old) :
    repo ∈ s.tasks.map (fun t => t.repo) := by
  by_contra hmem
  have hnone : findCommit s.alreadyExtracted repo = none := by
    rw [findCommit_eq_none_iff, hinv]
    simpa [List.map_map, Function.comp] using hmem
  rw [hfc] at hnone
  exact Option.noConfusion hnone

theorem repo_not_mem_tasks_of_findCommit_none {s : PlanState} {repo : String}
    (hinv : s.alreadyExtracted = s.tasks.map (fun t => (t.repo, t.commit)))
    (hfc : findCommit s.alreadyExtracted repo = none) :
    repo ∉ s.tasks.map (fun t => t.repo) := by
  have h1 := (findCommit_eq_none_iff _ _).mp hfc
  rw [hinv] at h1
  simpa [List.map_map, Function.comp] using h1

theorem plan_tasks_nodup (v : Nat) :
    ∀ (refs : List TagReference) (s : PlanState),
      s.alreadyExtracted = s.tasks.map (fun t => (t.repo, t.commit)) →
      (s.tasks.map (fun t => t.repo)).Nodup →
      ((List.foldl (planStep v) s refs).tasks.map (fun t => t.repo)).Nodup
  | [], _, _, hnd => hnd
  | r :: rs, s, hinv, hnd => by
      rw [List.foldl_cons]
      cases he : eligible r
      · rw [planStep_of_eligible_false v s he]
        exact plan_tasks_nodup v rs _ hinv hnd
      · cases hfc : findCommit s.alreadyExtracted r.sourceRepository with
        | some old =>
            rw [planStep_of_known v s he hfc]
            by_cases hco : old ≠ r.sourceCommit
            · rw [if_pos hco]
              exact plan_tasks_nodup v rs _ hinv hnd
            · rw [if_neg hco]
              exact plan_tasks_nodup v rs _ hinv hnd
        | none =>
            rw [planStep_of_new v s he hfc]
            refine plan_tasks_nodup v rs _ ?_ ?_
            · simp [hinv]
            · have hnotin := repo_not_mem_tasks_of_findCommit_none hinv hfc
              simp [List.nodup_append, hnd, hnotin]

theorem plan_tasks_repos_toFinset (v : Nat) :
    ∀ (refs : List TagReference) (s : PlanState),
      s.alreadyExtracted = s.tasks.map (fun t => (t.repo, t.commit)) →
      ((List.foldl (planStep v) s refs).tasks.map (fun t => t.repo)).toFinset =
        (s.tasks.map (fun t => t.repo)).toFinset ∪
          ((refs.filter (fun r => eligible r)).map (fun r => r.sourceRepository)).toFinset
  | [], _, _ => by simp
  | r :: rs, s, hinv => by
      rw [List.foldl_cons]
      cases he : eligible r
      · rw [planStep_of_eligible_false v s he]
        refine (plan_tasks_repos_toFinset v rs _ ?_).trans ?_
        · exact hinv
        · simp [List.filter_cons, he]
      · cases hfc : findCommit s.alreadyExtracted r.sourceRepository with
        | some old =>
            have hmem := repo_mem_tasks_of_findCommit_some hinv hfc
            have habsorb :
                (s.tasks.map (fun t => t.repo)).toFinset ∪
                    ((rs.filter (fun x => eligible x)).map
                      (fun x => x.sourceRepository)).toFinset =
                  (s.tasks.map (fun t => t.repo)).toFinset ∪
                    insert r.sourceRepository
                      ((rs.filter (fun x => eligible x)).map
                        (fun x => x.sourceRepository)).toFinset := by
              rw [Finset.union_insert,
                Finset.insert_eq_self.mpr
                  (Finset.mem_union_left _ (List.mem_toFinset.mpr hmem))]
            rw [planStep_of_known v s he hfc]
            by_cases hco : old ≠ r.sourceCommit
            · rw [if_pos hco]
              refine (plan_tasks_repos_toFinset v rs _ ?_).trans ?_
              · exact hinv
              · simp only [List.filter_cons, he, if_true, List.map_cons, List.toFinset_cons]
                exact habsorb
            · rw [if_neg hco]
              refine (plan_tasks_repos_toFinset v rs _ ?_).trans ?_
              · exact hinv
              · simp only [List.filter_cons, he, if_true, List.map_cons, List.toFinset_cons]
                exact habsorb
        | none =>
            rw [planStep_of_new v s he hfc]
            refine (plan_tasks_repos_toFinset v rs _ ?_).trans ?_
            · simp [hinv]
            · simp [List.filter_cons, he, Finset.union_assoc, Finset.insert_eq]

theorem firstCommitFor_cons_not_eligible {r : TagReference} (rs : List TagReference)
    (k : String) (he : eligible r = false) :
    firstCommitFor (r :: rs) k = firstCommitFor rs k := by
  unfold firstCommitFor
  rw [List.find?_cons_of_neg]
  simp [he]

theorem firstCommitFor_cons_other {r : TagReference} (rs : List TagReference)
    {k : String} (hne : r.sourceRepository ≠ k) :
    firstCommitFor (r :: rs) k = firstCommitFor rs k := by
  unfold firstCommitFor
  rw [List.find?_cons_of_neg]
  simp [hne]

theorem firstCommitFor_cons_self {r : TagReference} (rs : List TagReference)
    (he : eligible r = true) :
    firstCommitFor (r :: rs) r.sourceRepository = some r.sourceCommit := by
  unfold firstCommitFor
  rw [List.find?_cons_of_pos]
  · rfl
  · simp [he]

theorem plan_first_commit (v : Nat) :
    ∀ (refs : List TagReference) (s : PlanState),
      ∀ t ∈ (List.foldl (planStep v) s refs).tasks,
        t ∈ s.tasks ∨
          (findCommit s.alreadyExtracted t.repo = none ∧
            firstCommitFor refs t.repo = some t.commit)
  | [], _, t, ht => Or.inl ht
  | r :: rs, s, t, ht => by
      rw [List.foldl_cons] at ht
      cases he : eligible r
      · rw [planStep_of_eligible_false v s he] at ht
        rcases plan_first_commit v rs _ t ht with h | ⟨hfc, hrest⟩
        · exact Or.inl h
        · exact Or.inr ⟨hfc, by rw [firstCommitFor_cons_not_eligible rs t.repo he]; exact hrest⟩
      · cases hfc : findCommit s.alreadyExtracted r.sourceRepository with
        | some old =>
            have hstep : ∀ s₂ : PlanState, s₂.alreadyExtracted = s.alreadyExtracted →
                s₂.tasks = s.tasks →
                t ∈ (List.foldl (planStep v) s₂ rs).tasks →
                t ∈ s.tasks ∨
                  (findCommit s.alreadyExtracted t.repo = none ∧
                    firstCommitFor (r :: rs) t.repo = some t.commit) := by
              intro s₂ hae htk ht₂
              rcases plan_first_commit v rs s₂ t ht₂ with h | ⟨hnone, hrest⟩
              · rw [htk] at h
                exact Or.inl h
              · rw [hae] at hnone
                have hne : r.sourceRepository ≠ t.repo := by
                  intro hEq
                  rw [hEq, hnone] at hfc
                  exact Option.noConfusion hfc
                exact Or.inr ⟨hnone, by rw [firstCommitFor_cons_other rs hne]; exact hrest⟩
            rw [planStep_of_known v s he hfc] at ht
            by_cases hco : old ≠ r.sourceCommit
            · rw [if_pos hco] at ht
              exact hstep
                { s with msgs := s.msgs ++ [PlanMsg.conflictWarning r.sourceRepository] }
                rfl rfl ht
            · rw [if_neg hco] at ht
              exact hstep s rfl rfl ht
        | none =>
            rw [planStep_of_new v s he hfc] at ht
            rcases plan_first_commit v rs _ t ht with h | ⟨hnone, hrest⟩
            · rcases List.mem_append.mp h with h₁ | h₂
              · exact Or.inl h₁
              · have hteq : t = ⟨r.sourceRepository, r.sourceCommit⟩ :=
                  List.mem_singleton.mp h₂
                refine Or.inr ⟨by rw [hteq]; exact hfc, ?_⟩
                rw [hteq]
                exact firstCommitFor_cons_self rs he
            · have hsplit :
                  t.repo ∉ (s.alreadyExtracted ++
                      [(r.sourceRepository, r.sourceCommit)]).map Prod.fst :=
                (findCommit_eq_none_iff _ _).mp hnone
              rw [List.map_append] at hsplit
              simp only [List.mem_append, not_or] at hsplit
              obtain ⟨hnot₁, hnot₂⟩ := hsplit
              have hnone₁ : findCommit s.alreadyExtracted t.repo = none :=
                (findCommit_eq_none_iff _ _).mpr hnot₁
              have hne : r.sourceRepository ≠ t.repo := by
                intro hEq
                exact hnot₂ (by simp [hEq])
              exact Or.inr ⟨hnone₁, by rw [firstCommitFor_cons_other rs hne]; exact hrest⟩

/-! ### Claim C1 -/

/-- C1: For every release manifest, the number of checkout tasks submitted to
the work engine by `extractGit` equals the number of distinct
`sourceRepository` values among references that have both a non-empty
repository annotation and a non-empty commit annotation, and each submitted
task carries the commit of the first reference seen for its repository. -/
theorem extractGit_task_count_and_first_commit (v : Nat) (refs : List TagReference) :
    (plan v refs).tasks.length = distinctRepoCount refs ∧
    ∀ t ∈ (plan v refs).tasks, firstCommitFor refs t.repo = some t.commit := by
  constructor
  · rw [plan]
    have hnd := plan_tasks_nodup v refs initialPlanState rfl List.nodup_nil
    have htf := plan_tasks_repos_toFinset v refs initialPlanState rfl
    calc (List.foldl (planStep v) initialPlanState refs).tasks.length
        = ((List.foldl (planStep v) initialPlanState refs).tasks.map
            (fun t => t.repo)).length := (List.length_map _ _).symm
      _ = ((List.foldl (planStep v) initialPlanState refs).tasks.map
            (fun t => t.repo)).toFinset.card := (List.toFinset_card_of_nodup hnd).symm
      _ = distinctRepoCount refs := by
            rw [htf]
            simp [distinctRepoCount, initialPlanState]
  · intro t ht
    rw [plan] at ht
    rcases plan_first_commit v refs initialPlanState t ht with h | ⟨_, h⟩
    · exact (List.not_mem_nil t h).elim
    · exact h

/-- A concrete manifest: two references to R1 with the same commit, one to
R2, and one with no source info. -/
def refsC1 : List TagReference :=
  [⟨"A", "R1", "C1"⟩, ⟨"B", "R1", "C1"⟩, ⟨"C", "R2", "C2"⟩, ⟨"D", "", ""⟩]

/-- Witness for C1: the equality and the first-commit property evaluated on a
concrete manifest and a concrete submitted task. -/
theorem extractGit_task_count_and_first_commit_witness :
    (plan 0 refsC1).tasks.length = distinctRepoCount refsC1 ∧
    firstCommitFor refsC1 (CheckoutTask.mk "R1" "C1").repo =
      some (CheckoutTask.mk "R1" "C1").commit :=
  ⟨(extractGit_task_count_and_first_commit 0 refsC1).1,
   (extractGit_task_count_and_first_commit 0 refsC1).2 ⟨"R1", "C1"⟩ (by decide)⟩

/-! ### Claim C4 -/

/-- C4: When two references share a `sourceRepository`, exactly one task is
dispatched using the first-seen commit; exactly one conflict warning is
emitted if their commits differ, and none if they are equal. -/
theorem extractGit_shared_repo_dedup (v : Nat) (r₁ r₂ : TagReference)
    (h₁ : eligible r₁ = true) (h₂ : eligible r₂ = true)
    (hrepo : r₁.sourceRepository = r₂.sourceRepository) :
    (plan v [r₁, r₂]).tasks = [⟨r₁.sourceRepository, r₁.sourceCommit⟩] ∧
    (plan v [r₁, r₂]).msgs.countP isConflictWarning =
      (if r₁.sourceCommit = r₂.sourceCommit then 0 else 1) := by
  rw [plan, List.foldl_cons, List.foldl_cons, List.foldl_nil]
  rw [planStep_of_new v initialPlanState h₁ rfl]
  simp only [initialPlanState, List.nil_append]
  have hfc₂ : findCommit [(r₁.sourceRepository, r₁.sourceCommit)] r₂.sourceRepository
      = some r₁.sourceCommit := by
    unfold findCommit
    rw [if_pos hrepo]
  rw [planStep_of_known v
    { alreadyExtracted := [(r₁.sourceRepository, r₁.sourceCommit)],
      tasks := [⟨r₁.sourceRepository, r₁.sourceCommit⟩], msgs := [] } h₂ hfc₂]
  by_cases hcc : r₁.sourceCommit = r₂.sourceCommit
  · rw [if_neg (not_not_intro hcc)]
    exact ⟨rfl, by simp [hcc]⟩
  · rw [if_pos hcc]
    refine ⟨rfl, ?_⟩
    simp [List.countP_cons, isConflictWarning, hcc]

/-- Witness for C4 on concrete references sharing a repository with differing
commits. -/
theorem extractGit_shared_repo_dedup_witness :
    (plan 0 [⟨"A", "R1", "C1"⟩, ⟨"B", "R1", "C2"⟩]).tasks = [⟨"R1", "C1"⟩] ∧
    (plan 0 [⟨"A", "R1", "C1"⟩, ⟨"B", "R1", "C2"⟩]).msgs.countP isConflictWarning =
      (if ("C1" : String) = "C2" then 0 else 1) :=
  extractGit_shared_repo_dedup 0 ⟨"A", "R1", "C1"⟩ ⟨"B", "R1", "C2"⟩
    (by decide) (by decide) rfl

/-! ### Claim C6 -/

/-- Counterexample to C6: a reference with an empty repository annotation is
not skipped silently at default verbosity — the planning loop prints a
`warning: Tag D has no source info` line on the error stream (extract.go line
273), which is neither silent nor a low-severity log entry. The other parts
of the claim (no task, no effect on the verdict) do hold. -/
theorem noSourceInfo_not_silent_counterexample :
    (plan 0 [⟨"D", "", "c"⟩]).tasks = [] ∧
    (plan 0 [⟨"D", "", "c"⟩]).msgs = [PlanMsg.noSourceInfoWarning "D"] ∧
    (plan 0 [⟨"D", "", "c"⟩]).msgs.countP msgOnErrStream = 1 :=
  ⟨rfl, rfl, rfl⟩

/-- C6 amended: a reference whose repository or commit annotation is empty
produces no checkout task, leaves the dedup map unchanged, and does not
affect the run's success/failure verdict (the planned task list is
unchanged); it is logged at low severity when the log verbosity is at least
2, and otherwise a `no source info` warning naming the tag is printed on the
error stream. -/
theorem noSourceInfo_skip_amended (v : Nat) (s : PlanState) (refs : List TagReference)
    (ref : TagReference) (h : eligible ref = false) :
    (planStep v s ref).tasks = s.tasks ∧
    (planStep v s ref).alreadyExtracted = s.alreadyExtracted ∧
    (planStep v s ref).msgs = s.msgs ++
      [if 2 ≤ v then PlanMsg.noSourceInfoLog ref.name
       else PlanMsg.noSourceInfoWarning ref.name] ∧
    (plan v (refs ++ [ref])).tasks = (plan v refs).tasks := by
  refine ⟨?_, ?_, ?_, ?_⟩
  · rw [planStep_of_eligible_false v s h]
  · rw [planStep_of_eligible_false v s h]
  · rw [planStep_of_eligible_false v s h]
  · rw [plan, plan, List.foldl_append, List.foldl_cons, List.foldl_nil]
    rw [planStep_of_eligible_false v _ h]

/-- Witness for the amended C6 at a concrete state and reference. -/
theorem noSourceInfo_skip_amended_witness :
    (planStep 0 initialPlanState ⟨"D", "", "x"⟩).tasks = initialPlanState.tasks ∧
    (planStep 0 initialPlanState ⟨"D", "", "x"⟩).alreadyExtracted =
      initialPlanState.alreadyExtracted ∧
    (planStep 0 initialPlanState ⟨"D", "", "x"⟩).msgs = initialPlanState.msgs ++
      [if 2 ≤ 0 then PlanMsg.noSourceInfoLog "D"
       else PlanMsg.noSourceInfoWarning "D"] ∧
    (plan 0 ([⟨"A", "R1", "C1"⟩] ++ [⟨"D", "", "x"⟩])).tasks =
      (plan 0 [⟨"A", "R1", "C1"⟩]).tasks :=
  noSourceInfo_skip_amended 0 initialPlanState [⟨"A", "R1", "C1"⟩] ⟨"D", "", "x"⟩
    (by decide)

/-! ### Batch-execution lemmas -/

theorem runTask_preserves_onceFired_hadErrors (outcome : CheckoutTask → TaskOutcome)
    (s : GitRunState) (t : CheckoutTask) (h : s.onceFired = s.hadErrors) :
    (runTask outcome s t).onceFired = (runTask outcome s t).hadErrors := by
  rw [runTask]
  cases hf : taskFailed (outcome t)
  · simp [h]
  · rw [if_pos rfl]
    simp only [fireOnce]
    cases ho : s.onceFired
    · simp
    · simp [← h, ho]

theorem runTask_hadErrors (outcome : CheckoutTask → TaskOutcome)
    (s : GitRunState) (t : CheckoutTask) (h : s.onceFired = s.hadErrors) :
    (runTask outcome s t).hadErrors = (s.hadErrors || taskFailed (outcome t)) := by
  rw [runTask]
  cases hf : taskFailed (outcome t)
  · simp
  · rw [if_pos rfl]
    simp only [fireOnce]
    cases ho : s.onceFired
    · simp [← h, ho]
    · simp [← h, ho]

theorem foldl_runTask_hadErrors (outcome : CheckoutTask → TaskOutcome) :
    ∀ (l : List CheckoutTask) (s : GitRunState), s.onceFired = s.hadErrors →
      (List.foldl (runTask outcome) s l).hadErrors =
        (s.hadErrors || l.any (fun t => taskFailed (outcome t)))
  | [], s, _ => by simp
  | t :: ts, s, h => by
      rw [List.foldl_cons,
        foldl_runTask_hadErrors outcome ts _ (runTask_preserves_onceFired_hadErrors outcome s t h),
        runTask_hadErrors outcome s t h]
      simp [Bool.or_assoc]

theorem runTask_errOut_mono (outcome : CheckoutTask → TaskOutcome)
    (s : GitRunState) (t : CheckoutTask) {x : String} (h : x ∈ s.errOut) :
    x ∈ (runTask outcome s t).errOut := by
  rw [runTask]
  cases hf : taskFailed (outcome t)
  · simpa using h
  · rw [if_pos rfl]
    simp only [fireOnce]
    cases ho : s.onceFired
    · simp [List.mem_append, h]
    · simp [List.mem_append, h]

theorem foldl_runTask_errOut_mono (outcome : CheckoutTask → TaskOutcome) :
    ∀ (l : List CheckoutTask) (s : GitRunState) {x : String}, x ∈ s.errOut →
      x ∈ (List.foldl (runTask outcome) s l).errOut
  | [], _, _, h => h
  | t :: ts, s, x, h => by
      rw [List.foldl_cons]
      exact foldl_runTask_errOut_mono outcome ts _ (runTask_errOut_mono outcome s t h)

theorem runTask_errLine_mem (outcome : CheckoutTask → TaskOutcome)
    (s : GitRunState) (t : CheckoutTask) {ln : String}
    (hf : taskFailed (outcome t) = true)
    (hl : taskErrLine t.repo (outcome t) = some ln) :
    ln ∈ (runTask outcome s t).errOut := by
  rw [runTask, if_pos hf]
  simp only [fireOnce]
  cases ho : s.onceFired
  · simp [hl]
  · simp [hl]

theorem foldl_runTask_errLine_mem (outcome : CheckoutTask → TaskOutcome) :
    ∀ (l : List CheckoutTask) (s : GitRunState) (t : CheckoutTask), t ∈ l →
      taskFailed (outcome t) = true →
      ∀ ln, taskErrLine t.repo (outcome t) = some ln →
        ln ∈ (List.foldl (runTask outcome) s l).errOut
  | [], _, _, hm, _, _, _ => (List.not_mem_nil _ hm).elim
  | u :: us, s, t, hm, hf, ln, hl => by
      rw [List.foldl_cons]
      rcases List.mem_cons.mp hm with heq | htl
      · subst heq
        exact foldl_runTask_errOut_mono outcome us _
          (runTask_errLine_mem outcome s t hf hl)
      · exact foldl_runTask_errLine_mem outcome us _ t htl hf ln hl

/-! ### Claim C3 -/

/-- C3: if at least one checkout task fails, then after `Batch` returns
`hadErrors` is true regardless of how many tasks failed or in which order
they completed (any permutation of the planned task list), each failing task
has printed its own error line naming its repository, and `extractGit`
returns the silent non-zero `ErrExit`; if no task fails, `extractGit`
returns nil. -/
theorem extractGit_batch_error_aggregation (outcome : CheckoutTask → TaskOutcome)
    (tasks order : List CheckoutTask) (hperm : order.Perm tasks) :
    ((∃ t ∈ tasks, taskFailed (outcome t) = true) →
      (batchRun outcome order).hadErrors = true ∧
      extractGitVerdict (batchRun outcome order) = ExtractGitResult.errExitSilent ∧
      ∀ t ∈ tasks, taskFailed (outcome t) = true →
        ∀ ln, taskErrLine t.repo (outcome t) = some ln →
          ln ∈ (batchRun outcome order).errOut) ∧
    ((∀ t ∈ tasks, taskFailed (outcome t) = false) →
      (batchRun outcome order).hadErrors = false ∧
      extractGitVerdict (batchRun outcome order) = ExtractGitResult.ok) := by
  have hany : (batchRun outcome order).hadErrors =
      order.any (fun t => taskFailed (outcome t)) := by
    rw [batchRun, foldl_runTask_hadErrors outcome order initialGitRunState rfl]
    simp [initialGitRunState]
  constructor
  · rintro ⟨t, htm, htf⟩
    have hade : (batchRun outcome order).hadErrors = true := by
      rw [hany]
      exact List.any_eq_true.mpr ⟨t, hperm.mem_iff.mpr htm, htf⟩
    refine ⟨hade, ?_, ?_⟩
    · rw [extractGitVerdict, hade]
      simp
    · intro u hum huf ln hl
      exact foldl_runTask_errLine_mem outcome order initialGitRunState u
        (hperm.mem_iff.mpr hum) huf ln hl
  · intro hall
    have hnone : order.any (fun t => taskFailed (outcome t)) = false := by
      rw [List.any_eq_false]
      intro x hx
      rw [hall x (hperm.mem_iff.mp hx)]
      simp
    refine ⟨by rw [hany, hnone], ?_⟩
    rw [extractGitVerdict, hany, hnone]
    simp

/-- Witness for C3: a one-task batch whose clone fails yields `hadErrors`
and the silent exit. -/
theorem extractGit_batch_error_aggregation_witness :
    (batchRun (fun _ => TaskOutcome.cloneFailed "x" "y") [⟨"r1", "c1"⟩]).hadErrors = true ∧
    extractGitVerdict (batchRun (fun _ => TaskOutcome.cloneFailed "x" "y") [⟨"r1", "c1"⟩]) =
      ExtractGitResult.errExitSilent :=
  let h := (extractGit_batch_error_aggregation (fun _ => TaskOutcome.cloneFailed "x" "y")
    [⟨"r1", "c1"⟩] [⟨"r1", "c1"⟩] (List.Perm.refl _)).1
    ⟨⟨"r1", "c1"⟩, by decide, rfl⟩
  ⟨h.1, h.2.1⟩

/-! ### Claim C8 -/

theorem runTask_hadErrors_mono (outcome : CheckoutTask → TaskOutcome)
    (s : GitRunState) (t : CheckoutTask) (h : s.hadErrors = true) :
    (runTask outcome s t).hadErrors = true := by
  rw [runTask]
  cases hf : taskFailed (outcome t)
  · simpa using h
  · rw [if_pos rfl]
    simp only [fireOnce]
    cases ho : s.onceFired
    · simp
    · simpa using h

theorem runTask_preserves_onceFired_true (outcome : CheckoutTask → TaskOutcome)
    (s : GitRunState) (t : CheckoutTask) (h : s.onceFired = true) :
    (runTask outcome s t).onceFired = true := by
  rw [runTask]
  cases hf : taskFailed (outcome t)
  · simpa using h
  · rw [if_pos rfl]
    simp [fireOnce, h]

theorem mem_scanl_hadErrors (outcome : CheckoutTask → TaskOutcome) :
    ∀ (l : List CheckoutTask) (s : GitRunState) (x : GitRunState),
      x ∈ List.scanl (runTask outcome) s l → s.hadErrors = true → x.hadErrors = true
  | [], s, x, hx, h => by
      simp only [List.scanl, List.mem_singleton] at hx
      rw [hx]
      exact h
  | t :: ts, s, x, hx, h => by
      rw [List.scanl_cons] at hx
      rcases List.mem_cons.mp hx with h₁ | h₂
      · rw [h₁]
        exact h
      · exact mem_scanl_hadErrors outcome ts _ x h₂ (runTask_hadErrors_mono outcome s t h)

theorem scanl_runTask_pairwise (outcome : CheckoutTask → TaskOutcome) :
    ∀ (l : List CheckoutTask) (s : GitRunState),
      List.Pairwise (fun a b => a.hadErrors = true → b.hadErrors = true)
        (List.scanl (runTask outcome) s l)
  | [], s => by simp [List.scanl]
  | t :: ts, s => by
      rw [List.scanl_cons, List.singleton_append, List.pairwise_cons]
      refine ⟨?_, scanl_runTask_pairwise outcome ts (runTask outcome s t)⟩
      intro b hb hs
      exact mem_scanl_hadErrors outcome ts _ b hb (runTask_hadErrors_mono outcome s t hs)

theorem onceBodyRuns_of_fired (outcome : CheckoutTask → TaskOutcome) :
    ∀ (l : List CheckoutTask) (s : GitRunState), s.onceFired = true →
      onceBodyRuns outcome s l = 0
  | [], _, _ => rfl
  | t :: ts, s, h => by
      show (if taskFailed (outcome t) && !s.onceFired then 1 else 0) +
        onceBodyRuns outcome (runTask outcome s t) ts = 0
      rw [h, onceBodyRuns_of_fired outcome ts _ (runTask_preserves_onceFired_true outcome s t h)]
      simp

theorem onceBodyRuns_eq (outcome : CheckoutTask → TaskOutcome) :
    ∀ (l : List CheckoutTask) (s : GitRunState), s.onceFired = false →
      onceBodyRuns outcome s l =
        (if l.any (fun t => taskFailed (outcome t)) then 1 else 0)
  | [], _, _ => by simp [onceBodyRuns]
  | t :: ts, s, h => by
      show (if taskFailed (outcome t) && !s.onceFired then 1 else 0) +
        onceBodyRuns outcome (runTask outcome s t) ts = _
      rw [h]
      cases hf : taskFailed (outcome t)
      · have hkeep : (runTask outcome s t).onceFired = false := by
          rw [runTask, hf]
          simpa using h
        rw [onceBodyRuns_eq outcome ts _ hkeep]
        simp [hf]
      · have hfired : (runTask outcome s t).onceFired = true := by
          rw [runTask, hf, if_pos rfl]
          simp [fireOnce, h]
        rw [onceBodyRuns_of_fired outcome ts _ hfired]
        simp [hf]

/-- C8: the `hadErrors` flag starts false, only ever transitions from false
to true along every completion order (later states in the batch trace
preserve a set flag — it is never reset), and the `once.Do` body that sets
it runs exactly once when any task fails and never otherwise. -/
theorem hadErrors_single_fire (outcome : CheckoutTask → TaskOutcome)
    (order : List CheckoutTask) :
    initialGitRunState.hadErrors = false ∧
    List.Pairwise (fun a b => a.hadErrors = true → b.hadErrors = true)
      (batchTrace outcome order) ∧
    onceBodyRuns outcome initialGitRunState order =
      (if order.any (fun t => taskFailed (outcome t)) then 1 else 0) :=
  ⟨rfl, scanl_runTask_pairwise outcome order initialGitRunState,
    onceBodyRuns_eq outcome order initialGitRunState rfl⟩

/-! ### Claim C2 -/

/-- C2: after the default release-contents extraction completes without an
extraction error, `Run` fails with the tamper/integrity error when the
verifier never recorded a match and verification is not skipped; it returns
nil and prints a warning on the error stream when the verifier never
recorded a match but verification is skipped; and it returns nil with no
warning when a match was recorded. -/
theorem runDefault_verification_policy (skip : Bool) (refID : String)
    (meta : Option MetadataEvent) :
    (metadataMatched meta = false → skip = false →
      (runDefaultFlow skip refID (ExtractOutcome.completed meta)).result =
        some integrityErrMsg) ∧
    (metadataMatched meta = false → skip = true →
      (runDefaultFlow skip refID (ExtractOutcome.completed meta)).result = none ∧
      (runDefaultFlow skip refID (ExtractOutcome.completed meta)).errOut =
        ["warning: " ++ integrityErrMsg ++ "\n"]) ∧
    (metadataMatched meta = true →
      (runDefaultFlow skip refID (ExtractOutcome.completed meta)).result = none ∧
      (runDefaultFlow skip refID (ExtractOutcome.completed meta)).errOut = []) := by
  refine ⟨?_, ?_, ?_⟩
  · intro hm hs
    subst hs
    cases meta with
    | none => simp [runDefaultFlow, newVerifier, Verifier.verified]
    | some e =>
        have hb : (e.dgst == e.contentDigest) = false := by
          simpa [metadataMatched] using hm
        simp [runDefaultFlow, newVerifier, Verifier.verify, Verifier.verified, hb]
  · intro hm hs
    subst hs
    cases meta with
    | none => simp [runDefaultFlow, newVerifier, Verifier.verified]
    | some e =>
        have hb : (e.dgst == e.contentDigest) = false := by
          simpa [metadataMatched] using hm
        simp [runDefaultFlow, newVerifier, Verifier.verify, Verifier.verified, hb]
  · intro hm
    cases meta with
    | none => simp [metadataMatched] at hm
    | some e =>
        have hb : (e.dgst == e.contentDigest) = true := by
          simpa [metadataMatched] using hm
        simp [runDefaultFlow, newVerifier, Verifier.verify, Verifier.verified, hb]

/-- Witness for C2: a mismatching metadata event with verification skipped
yields a nil result and the warning line. -/
theorem runDefault_verification_policy_witness :
    (runDefaultFlow true "id" (ExtractOutcome.completed
      (some ⟨"a", "b", "t"⟩))).result = none ∧
    (runDefaultFlow true "id" (ExtractOutcome.completed
      (some ⟨"a", "b", "t"⟩))).errOut = ["warning: " ++ integrityErrMsg ++ "\n"] :=
  (runDefault_verification_policy true "id" (some ⟨"a", "b", "t"⟩)).2.1 (by decide) rfl

/-! ### Claim C5 -/

/-- C5: when the computed content digest differs from the declared digest and
verification is not skipped, the default flow returns the integrity error
(the CLI layer prints it and exits non-zero), and standard output carries
only the extraction status line — the verdict adds no success message to
standard output. -/
theorem digest_mismatch_fails_run (refID : String) (e : MetadataEvent)
    (hne : e.dgst ≠ e.contentDigest) :
    (runDefaultFlow false refID (ExtractOutcome.completed (some e))).result =
      some integrityErrMsg ∧
    (runDefaultFlow false refID (ExtractOutcome.completed (some e))).out =
      [payloadStatusLine refID e] := by
  have hb : (e.dgst == e.contentDigest) = false := by
    rw [beq_eq_false_iff_ne]
    exact hne
  simp [runDefaultFlow, newVerifier, Verifier.verify, Verifier.verified, hb]

/-- Witness for C5 at concrete mismatching digests. -/
theorem digest_mismatch_fails_run_witness :
    (runDefaultFlow false "id" (ExtractOutcome.completed
      (some ⟨"a", "b", "t"⟩))).result = some integrityErrMsg ∧
    (runDefaultFlow false "id" (ExtractOutcome.completed
      (some ⟨"a", "b", "t"⟩))).out = [payloadStatusLine "id" ⟨"a", "b", "t"⟩] :=
  digest_mismatch_fails_run "id" ⟨"a", "b", "t"⟩ (by decide)

/-! ### Claim C10 -/

/-- C10: in single-file mode `Run` installs the caller-supplied metadata
callback directly and never constructs or consults the content verifier: the
flow's observable behavior is the same for any metadata event (matching or
mismatching digests), no warning is ever printed on the error stream, and a
successful extraction that finds the file returns nil even when the digests
mismatch. -/
theorem file_mode_no_verification (file : String) (entries : List TarEntry)
    (extractErr : Option String) (meta meta' : Option MetadataEvent) :
    runFileFlow file entries extractErr meta = runFileFlow file entries extractErr meta' ∧
    (runFileFlow file entries extractErr meta).errOut = [] ∧
    ((scanEntries file entries).1 = true →
      (runFileFlow file entries none meta).result = none) := by
  refine ⟨rfl, ?_, ?_⟩
  · cases extractErr with
    | some m => rfl
    | none => cases hs : (scanEntries file entries).1 <;> simp [runFileFlow, hs]
  · intro hfound
    simp [runFileFlow, hfound]

/-- Witness for C10: a found file with mismatching digests still returns nil
with no warning, identically to a run with no metadata at all. -/
theorem file_mode_no_verification_witness :
    runFileFlow "f" [⟨"f", "data"⟩] none (some ⟨"a", "b", "t"⟩) =
      runFileFlow "f" [⟨"f", "data"⟩] none none ∧
    (runFileFlow "f" [⟨"f", "data"⟩] none (some ⟨"a", "b", "t"⟩)).errOut = [] ∧
    (runFileFlow "f" [⟨"f", "data"⟩] none (some ⟨"a", "b", "t"⟩)).result = none :=
  let h := file_mode_no_verification "f" [⟨"f", "data"⟩] none (some ⟨"a", "b", "t"⟩) none
  ⟨h.1, h.2.1, h.2.2 (by decide)⟩

/-! ### Claim C9 -/

/-- C9: the work engine never has more than `maxParallel` (8, as constructed
by `extractGit`) tasks in the running state, in every state reachable from
any batch of tasks (any size ≥ 0), and a batch with zero submitted tasks is
complete immediately with no error. -/
theorem engine_bounded_parallelism (tasks : List Nat) :
    (∀ s : EngineState, EngineReachable 8 tasks s → s.running.length ≤ 8) ∧
    engineDone (initEngine []) = true := by
  constructor
  · intro s h
    rw [EngineReachable] at h
    induction h with
    | refl => simp [initEngine]
    | tail hab hbc ih =>
        cases hbc with
        | start t q r f hlt =>
            show (r ++ [t]).length ≤ 8
            rw [List.length_append, List.length_singleton]
            omega
        | retire t q r₁ r₂ f c =>
            simp only [List.length_append, List.length_cons] at ih ⊢
            omega
        | cancel q r f => exact ih
  · rfl

/-- Witness for C9: the initial state of a three-task batch is reachable and
respects the bound, and the empty batch is already complete. -/
theorem engine_bounded_parallelism_witness :
    (initEngine [0, 1, 2]).running.length ≤ 8 ∧ engineDone (initEngine []) = true :=
  ⟨(engine_bounded_parallelism [0, 1, 2]).1 _ Relation.ReflTransGen.refl,
   (engine_bounded_parallelism []).2⟩

/-! ### Claim C7 -/

theorem validTrace_parts {v : Nat} {refs : List TagReference} {tr : List GitEvent}
    (hv : validTrace v refs tr = true) :
    (tr.filter isPlannedEvent == (List.range refs.length).map GitEvent.planned) = true ∧
    ((List.range refs.length).all fun i =>
      if submitsAt v refs i then
        tr.count (GitEvent.started i) == 1 &&
        tr.count (GitEvent.finished i) == 1 &&
        decide (tr.indexOf (GitEvent.planned i) < tr.indexOf (GitEvent.started i)) &&
        decide (tr.indexOf (GitEvent.started i) < tr.indexOf (GitEvent.finished i))
      else
        tr.count (GitEvent.started i) == 0 && tr.count (GitEvent.finished i) == 0) = true ∧
    (tr.all fun e => decide (eventIndex e < refs.length)) = true := by
  simp only [validTrace, Bool.and_eq_true] at hv
  exact ⟨hv.1.1.1.1, hv.1.1.1.2, hv.1.1.2⟩

theorem validTrace_filter_planned {v : Nat} {refs : List TagReference} {tr : List GitEvent}
    (hv : validTrace v refs tr = true) :
    tr.filter isPlannedEvent = (List.range refs.length).map GitEvent.planned :=
  eq_of_beq (validTrace_parts hv).1

theorem validTrace_start_after_plan {v : Nat} {refs : List TagReference} {tr : List GitEvent}
    (hv : validTrace v refs tr = true) {i : Nat} (hi : i < refs.length)
    (hs : submitsAt v refs i = true) :
    tr.indexOf (GitEvent.planned i) < tr.indexOf (GitEvent.started i) := by
  obtain ⟨-, hB, -⟩ := validTrace_parts hv
  have hcomp := (List.all_eq_true.mp hB) i (List.mem_range.mpr hi)
  simp only [hs, if_true, Bool.and_eq_true, beq_iff_eq, decide_eq_true_eq] at hcomp
  exact hcomp.1.2

theorem validTrace_count_started {v : Nat} {refs : List TagReference} {tr : List GitEvent}
    (hv : validTrace v refs tr = true) (i : Nat) :
    tr.count (GitEvent.started i) =
      if i < refs.length then (if submitsAt v refs i then 1 else 0) else 0 := by
  obtain ⟨-, hB, hC⟩ := validTrace_parts hv
  by_cases hi : i < refs.length
  · have hcomp := (List.all_eq_true.mp hB) i (List.mem_range.mpr hi)
    rw [if_pos hi]
    cases hsub : submitsAt v refs i
    · simp only [hsub, if_false, Bool.false_eq_true, Bool.and_eq_true, beq_iff_eq] at hcomp
      simp only [hsub, Bool.false_eq_true, if_false]
      exact hcomp.1
    · simp only [hsub, if_true, Bool.and_eq_true, beq_iff_eq, decide_eq_true_eq] at hcomp
      simp only [hsub, if_true]
      exact hcomp.1.1.1
  · rw [if_neg hi, List.count_eq_zero]
    intro hmem
    have hidx := (List.all_eq_true.mp hC) _ hmem
    simp [eventIndex] at hidx
    exact hi hidx

/-- Counterexample to C7: per the spec's engine, `w.Parallel` submission is
asynchronous, so a valid batch trace exists in which the task submitted for
reference 0 starts before the planning loop processes reference 1; planning
does not complete before a worker starts, and the `alreadyExtracted` map is
written (at the plan event of reference 1) after a worker has started. -/
theorem planning_overlaps_worker_start_counterexample :
    validTrace 0 refsTwoRepos interleavedTrace = true ∧
    planningBeforeAnyStart interleavedTrace = false ∧
    noMapWriteAfterStart 0 refsTwoRepos interleavedTrace = false :=
  ⟨by decide, by decide, by decide⟩

/-- C7 amended: the `alreadyExtracted` map is read and written only by the
planning loop, which runs single-threaded on the `Batch` caller's thread, so
in every valid trace the plan events occur exactly once each, in reference
order; each checkout task starts only after its own planning step (which
captures its repository and commit by value); and the set of tasks that run
is the same in every valid interleaving. Tasks may, however, begin running
before planning of later references completes. -/
theorem plan_single_threaded_amended (v : Nat) (refs : List TagReference)
    (tr : List GitEvent) (hv : validTrace v refs tr = true) :
    tr.filter isPlannedEvent = (List.range refs.length).map GitEvent.planned ∧
    (∀ i, i < refs.length → submitsAt v refs i = true →
      tr.indexOf (GitEvent.planned i) < tr.indexOf (GitEvent.started i)) ∧
    (∀ tr₂, validTrace v refs tr₂ = true → ∀ i,
      tr.count (GitEvent.started i) = tr₂.count (GitEvent.started i)) := by
  refine ⟨validTrace_filter_planned hv, ?_, ?_⟩
  · intro i hi hs
    exact validTrace_start_after_plan hv hi hs
  · intro tr₂ hv₂ i
    rw [validTrace_count_started hv i, validTrace_count_started hv₂ i]

/-- Witness for the amended C7 on a concrete valid trace: the interleaved
trace and the fully sequential trace agree on which tasks start, and each
start follows its own plan event. -/
theorem plan_single_threaded_amended_witness :
    sequentialTrace.filter isPlannedEvent = (List.range refsTwoRepos.length).map
      GitEvent.planned ∧
    sequentialTrace.indexOf (GitEvent.planned 0) <
      sequentialTrace.indexOf (GitEvent.started 0) ∧
    sequentialTrace.count (GitEvent.started 0) =
      interleavedTrace.count (GitEvent.started 0) :=
  let h := plan_single_threaded_amended 0 refsTwoRepos sequentialTrace (by decide)
  ⟨h.1, h.2.1 0 (by decide) (by decide), h.2.2 interleavedTrace (by decide) 0⟩
